import Mathlib

set_option maxRecDepth 1000000

set_option linter.unnecessarySeqFocus false

/-!
Verification of the `sign4` AWS Signature Version 4 signing package
(repository p-lewis/awsgolang) against its natural-language specification.

The Go source is shallowly embedded in Lean:
* Go byte strings are modelled as `List Nat` (each element a byte < 256);
  Go `string` values that are scanned rune-by-rune are modelled as Lean
  `String` (a list of unicode scalar values), bridged by UTF-8 encoding,
  exactly as Go converts between `string` and `[]byte`.
* `crypto/sha256` and `crypto/hmac` are modelled by an executable FIPS-180-4
  SHA-256 and RFC-2104 HMAC over byte lists.
* fallible Go functions returning `(T, error)` become `Except String T`.
-/

namespace GoModel

/-- Truncate to a 32-bit word, the wrap-around of Go's uint32 arithmetic. -/
def w32 (n : Nat) : Nat := n % 4294967296

/-- 32-bit bitwise exclusive-or. -/
def xor32 (x y : Nat) : Nat := x ^^^ y

/-- 32-bit bitwise and. -/
def and32 (x y : Nat) : Nat := x &&& y

/-- Rotate a 32-bit word right by `n` bits, as Go's uint32 rotation. -/
def rotr (n x : Nat) : Nat := (x >>> n) ||| w32 (x <<< (32 - n))

/-- Bitwise complement of a 32-bit word. -/
def not32 (x : Nat) : Nat := 4294967295 - x

def bsig0 (x : Nat) : Nat := xor32 (xor32 (rotr 2 x) (rotr 13 x)) (rotr 22 x)

def bsig1 (x : Nat) : Nat := xor32 (xor32 (rotr 6 x) (rotr 11 x)) (rotr 25 x)

def ssig0 (x : Nat) : Nat := xor32 (xor32 (rotr 7 x) (rotr 18 x)) (x >>> 3)

def ssig1 (x : Nat) : Nat := xor32 (xor32 (rotr 17 x) (rotr 19 x)) (x >>> 10)

def ch (x y z : Nat) : Nat := xor32 (and32 x y) (and32 (not32 x) z)

def maj (x y z : Nat) : Nat := xor32 (xor32 (and32 x y) (and32 x z)) (and32 y z)

/-- The SHA-256 round constants (FIPS 180-4 section 4.2.2). -/
def shaK : List Nat :=
  [1116352408, 1899447441, 3049323471, 3921009573, 961987163, 1508970993,
   2453635748, 2870763221, 3624381080, 310598401, 607225278, 1426881987,
   1925078388, 2162078206, 2614888103, 3248222580, 3835390401, 4022224774,
   264347078, 604807628, 770255983, 1249150122, 1555081692, 1996064986,
   2554220882, 2821834349, 2952996808, 3210313671, 3336571891, 3584528711,
   113926993, 338241895, 666307205, 773529912, 1294757372, 1396182291,
   1695183700, 1986661051, 2177026350, 2456956037, 2730485921, 2820302411,
   3259730800, 3345764771, 3516065817, 3600352804, 4094571909, 275423344,
   430227734, 506948616, 659060556, 883997877, 958139571, 1322822218,
   1537002063, 1747873779, 1955562222, 2024104815, 2227730452, 2361852424,
   2428436474, 2756734187, 3204031479, 3329325298]

/-- Message-schedule extension: produce `n` further words from a sliding
window containing the previous 16 words. -/
def schedAux : Nat → List Nat → List Nat
  | 0, _ => []
  | n+1, win =>
      let nw := w32 (ssig1 (win.getD 14 0) + win.getD 9 0 + ssig0 (win.getD 1 0) + win.getD 0 0)
      nw :: schedAux n (win.tail ++ [nw])

/-- Extend a 16-word block to the full 64-word message schedule. -/
def extendWords (ws : List Nat) : List Nat := ws ++ schedAux 48 ws

/-- The eight working variables of the SHA-256 compression function. -/
structure Hash8 where
  a : Nat
  b : Nat
  c : Nat
  d : Nat
  e : Nat
  f : Nat
  g : Nat
  h : Nat
  deriving Repr, DecidableEq

def compressRound (s : Hash8) (kw : Nat × Nat) : Hash8 :=
  let t1 := w32 (s.h + bsig1 s.e + ch s.e s.f s.g + kw.1 + kw.2)
  let t2 := w32 (bsig0 s.a + maj s.a s.b s.c)
  ⟨w32 (t1 + t2), s.a, s.b, s.c, w32 (s.d + t1), s.e, s.f, s.g⟩

def compressBlock (hs : Hash8) (block : List Nat) : Hash8 :=
  let w := extendWords block
  let s := (List.zip shaK w).foldl compressRound hs
  ⟨w32 (hs.a + s.a), w32 (hs.b + s.b), w32 (hs.c + s.c), w32 (hs.d + s.d),
   w32 (hs.e + s.e), w32 (hs.f + s.f), w32 (hs.g + s.g), w32 (hs.h + s.h)⟩

/-- Group a byte list into big-endian 32-bit words. -/
def toWords : List Nat → List Nat
  | b0 :: b1 :: b2 :: b3 :: rest =>
      (b0 * 16777216 + b1 * 65536 + b2 * 256 + b3) :: toWords rest
  | _ => []

/-- Chop a word list into 16-word blocks (structurally, so that the kernel
can evaluate hashes). A trailing fragment shorter than 16 words is dropped;
after SHA-256 padding the length is always a multiple of 16. -/
def wordBlocks : List Nat → List (List Nat)
  | w0 :: w1 :: w2 :: w3 :: w4 :: w5 :: w6 :: w7 ::
    w8 :: w9 :: w10 :: w11 :: w12 :: w13 :: w14 :: w15 :: rest =>
      [w0, w1, w2, w3, w4, w5, w6, w7, w8, w9, w10, w11, w12, w13, w14, w15] :: wordBlocks rest
  | _ => []

/-- A natural number as 8 big-endian bytes. -/
def be64 (n : Nat) : List Nat :=
  [n / 72057594037927936 % 256, n / 281474976710656 % 256,
   n / 1099511627776 % 256, n / 4294967296 % 256,
   n / 16777216 % 256, n / 65536 % 256, n / 256 % 256, n % 256]

/-- SHA-256 padding: append 0x80, zero bytes to 56 mod 64, then the
bit length as 8 big-endian bytes. -/
def sha256Pad (msg : List Nat) : List Nat :=
  let len := msg.length
  let padZeros := (119 - len % 64) % 64
  msg ++ 128 :: List.replicate padZeros 0 ++ be64 (8 * len)

def initH : Hash8 :=
  ⟨1779033703, 3144134277, 1013904242, 2773480762,
   1359893119, 2600822924, 528734635, 1541459225⟩

def wordsToBytes (ws : List Nat) : List Nat :=
  ws.flatMap fun w => [w / 16777216 % 256, w / 65536 % 256, w / 256 % 256, w % 256]

/-- SHA-256 of a byte list (FIPS 180-4), as the 32-byte digest.
Models Go's crypto/sha256. -/
def sha256 (msg : List Nat) : List Nat :=
  let hs := (wordBlocks (toWords (sha256Pad msg))).foldl compressBlock initH
  wordsToBytes [hs.a, hs.b, hs.c, hs.d, hs.e, hs.f, hs.g, hs.h]

/-- HMAC-SHA256 (RFC 2104) with a 64-byte block size.
Models Go's crypto/hmac specialised to sha256. -/
def hmacSha256 (key msg : List Nat) : List Nat :=
  let k1 := if key.length > 64 then sha256 key else key
  let k0 := k1 ++ List.replicate (64 - k1.length) 0
  let ipadded := k0.map fun b => xor32 b 54
  let opadded := k0.map fun b => xor32 b 92
  sha256 (opadded ++ sha256 (ipadded ++ msg))

/-- The UTF-8 encoding of one unicode scalar value, as bytes.
Models Go's conversion of a rune to string bytes. -/
def utf8Char (c : Char) : List Nat :=
  let n := c.toNat
  if n < 128 then [n]
  else if n < 2048 then [192 + n / 64, 128 + n % 64]
  else if n < 65536 then [224 + n / 4096, 128 + n / 64 % 64, 128 + n % 64]
  else [240 + n / 262144, 128 + n / 4096 % 64, 128 + n / 64 % 64, 128 + n % 64]

/-- The bytes of a Go string, i.e. the UTF-8 encoding of its runes. -/
def utf8Bytes (s : String) : List Nat := s.data.flatMap utf8Char

/-- Lowercase hexadecimal digit for a value below 16. -/
def hexChar (n : Nat) : Char := Char.ofNat (if n < 10 then 48 + n else 87 + n)

/-- Lowercase hex encoding of a byte list; models Go fmt's percent-x verb
applied to a byte slice. -/
def hexBytes (bs : List Nat) : String :=
  String.mk (bs.flatMap fun b => [hexChar (b / 16), hexChar (b % 16)])

/-! ### Go string primitives -/

/-- Split a character list at every CRLF; models Go strings.Split(s, "\r\n"). -/
def splitCRLFAux : List Char → List (List Char)
  | [] => [[]]
  | '\r' :: '\n' :: rest => [] :: splitCRLFAux rest
  | c :: rest =>
      match splitCRLFAux rest with
      | [] => [[c]]
      | l :: ls => (c :: l) :: ls

def splitCRLF (s : String) : List String := (splitCRLFAux s.data).map String.mk

/-- Split a character list at every occurrence of a separator character;
models Go strings.Split with a one-character separator. -/
def splitCharAux (sep : Char) : List Char → List (List Char)
  | [] => [[]]
  | c :: rest =>
      let r := splitCharAux sep rest
      if c = sep then [] :: r
      else
        match r with
        | [] => [[c]]
        | l :: ls => (c :: l) :: ls

def goSplit (sep : Char) (s : String) : List String := (splitCharAux sep s.data).map String.mk

/-- Split at the first occurrence of a separator, if any. -/
def splitFirstAux (sep : Char) : List Char → Option (List Char × List Char)
  | [] => none
  | c :: rest =>
      if c = sep then some ([], rest)
      else (splitFirstAux sep rest).map fun p => (c :: p.1, p.2)

/-- Models Go strings.SplitN(s, sep, 2) for a one-character separator. -/
def goSplitN2 (sep : Char) (s : String) : List String :=
  match splitFirstAux sep s.data with
  | none => [s]
  | some (a, b) => [String.mk a, String.mk b]

def asciiLowerChar (c : Char) : Char :=
  if 'A' ≤ c ∧ c ≤ 'Z' then Char.ofNat (c.toNat + 32) else c

def asciiUpperChar (c : Char) : Char :=
  if 'a' ≤ c ∧ c ≤ 'z' then Char.ofNat (c.toNat - 32) else c

/-- Models Go strings.ToLower (the header names and methods in scope are
ASCII, where Go's Unicode lowering coincides with ASCII lowering). -/
def goToLower (s : String) : String := String.mk (s.data.map asciiLowerChar)

/-- Models Go strings.ToUpper on ASCII input. -/
def goToUpper (s : String) : String := String.mk (s.data.map asciiUpperChar)

/-- Go unicode.IsSpace: the White_Space property of a rune. -/
def goIsSpace (c : Char) : Bool :=
  let n := c.toNat
  (9 ≤ n && n ≤ 13) || n == 32 || n == 133 || n == 160 || n == 5760 ||
  (8192 ≤ n && n ≤ 8202) || n == 8232 || n == 8233 || n == 8239 || n == 8287 || n == 12288

def dropWhileSpace : List Char → List Char
  | [] => []
  | c :: rest => if goIsSpace c then dropWhileSpace rest else c :: rest

/-- Models Go strings.TrimSpace. -/
def goTrimSpace (s : String) : String :=
  String.mk ((dropWhileSpace (dropWhileSpace s.data).reverse).reverse)

/-! ### Byte-list order and sorting (Go sort.Strings on raw bytes) -/

/-- Byte-wise lexicographic order on byte lists: exactly Go's ordering of
strings, which compares raw bytes. -/
def bytesLe : List Nat → List Nat → Bool
  | [], _ => true
  | _ :: _, [] => false
  | a :: as, b :: bs => if a < b then true else if b < a then false else bytesLe as bs

/-- Sorting with a boolean-valued order; models Go sort.Strings and
sort of string slices (for a total preorder the sorted permutation is
unique as a list, so any correct sort agrees with insertion sort). -/
def sortLe {α : Type} (le : α → α → Bool) (l : List α) : List α :=
  List.insertionSort (fun a b => le a b = true) l

/-- Go string order, via UTF-8 bytes (UTF-8 byte order coincides with
code-point order). -/
def goStrLe (a b : String) : Bool := bytesLe (utf8Bytes a) (utf8Bytes b)

/-! ### Query escaping (Go net/url), modelled at the byte level -/

def isAlnumByte (b : Nat) : Bool :=
  (48 ≤ b && b ≤ 57) || (65 ≤ b && b ≤ 90) || (97 ≤ b && b ≤ 122)

/-- Bytes Go's url.QueryEscape leaves unescaped: letters, digits and
the marks minus, period, underscore, tilde. -/
def queryNoEscape (b : Nat) : Bool :=
  isAlnumByte b || b == 45 || b == 46 || b == 95 || b == 126

def upperHexByte (n : Nat) : Nat := if n < 10 then 48 + n else 55 + n

/-- Escape a single byte as url.QueryEscape does: unreserved bytes pass
through, space becomes plus (byte 43), anything else percent-encodes with
uppercase hex digits. -/
def escByte (b : Nat) : List Nat :=
  if queryNoEscape b then [b]
  else if b == 32 then [43]
  else [37, upperHexByte (b / 16), upperHexByte (b % 16)]

/-- Models Go url.QueryEscape on the bytes of a string. -/
def queryEscape (s : List Nat) : List Nat := s.flatMap escByte

def unhexDigit (b : Nat) : Option Nat :=
  if 48 ≤ b && b ≤ 57 then some (b - 48)
  else if 97 ≤ b && b ≤ 102 then some (b - 87)
  else if 65 ≤ b && b ≤ 70 then some (b - 55)
  else none

/-- Models Go url.QueryUnescape: percent followed by two hex digits decodes
to a byte, plus decodes to space, a malformed percent escape is an error
(none). -/
def queryUnescape : List Nat → Option (List Nat)
  | [] => some []
  | b :: rest =>
      if b = 37 then
        match rest with
        | h :: l :: rest2 =>
            match unhexDigit h, unhexDigit l with
            | some hv, some lv => (queryUnescape rest2).map fun r => (16 * hv + lv) :: r
            | _, _ => none
        | _ => none
      else if b = 43 then (queryUnescape rest).map fun r => 32 :: r
      else (queryUnescape rest).map fun r => b :: r

/-- Split a raw query on ampersand and semicolon separators, as the
parseQuery of Go's net/url (of this repository's era) does. -/
def querySegments : List Nat → List (List Nat)
  | [] => [[]]
  | b :: rest =>
      let r := querySegments rest
      if b == 38 || b == 59 then [] :: r
      else
        match r with
        | [] => [[b]]
        | l :: ls => (b :: l) :: ls

def splitFirstByte (sep : Nat) : List Nat → Option (List Nat × List Nat)
  | [] => none
  | b :: rest =>
      if b = sep then some ([], rest)
      else (splitFirstByte sep rest).map fun p => (b :: p.1, p.2)

/-- Split one query segment into raw key and raw value at the first
equals sign; a segment without one is all key, with empty value. -/
def splitEq (seg : List Nat) : List Nat × List Nat :=
  match splitFirstByte 61 seg with
  | none => (seg, [])
  | some p => p

/-- Go url.Values: an ordered association from decoded keys to the list of
decoded values, duplicates preserved in encounter order. Models the Go
map of string to string slice. -/
abbrev GoValues := List (List Nat × List (List Nat))

def valuesGet (m : GoValues) (k : List Nat) : List (List Nat) :=
  ((m.find? fun p => p.1 == k).map fun p => p.2).getD []

def valuesAppend (m : GoValues) (k v : List Nat) : GoValues :=
  if (m.find? fun p => p.1 == k).isSome then
    m.map fun p => if p.1 == k then (p.1, p.2 ++ [v]) else p
  else m ++ [(k, [v])]

/-- Models Go url.ParseQuery as called by URL.Query(): segments with an
unescape error are skipped, the error itself is discarded. -/
def goParseQuery (q : List Nat) : GoValues :=
  (querySegments q).foldl
    (fun m seg =>
      if seg.isEmpty then m
      else
        let kv := splitEq seg
        match queryUnescape kv.1, queryUnescape kv.2 with
        | some k, some v => valuesAppend m k v
        | _, _ => m)
    []

/-- Join byte strings with a separator; models Go strings.Join. -/
def joinBytes (sep : List Nat) : List (List Nat) → List Nat
  | [] => []
  | [x] => x
  | x :: xs => x ++ sep ++ joinBytes sep xs

/-- Join strings with a separator; models Go strings.Join. -/
def goJoin (sep : String) : List String → String
  | [] => ""
  | [x] => x
  | x :: xs => x ++ sep ++ goJoin sep xs

/-- Render the bytes of a Go string as a Lean string, byte for byte.
Exact for the ASCII output of the query encoder. -/
def stringOfBytes (bs : List Nat) : String := String.mk (bs.map Char.ofNat)

end GoModel

namespace Sign4

open GoModel

/-! ### The sign4 package (src/unnamed/part_001), shallowly embedded -/

/-- Loop body of orderAndEncodeUrlValues (source lines 204-214): walk the
sorted escaped keys, unescape each to look its values up, sort the values,
and emit one escaped k=v pair per value. An unescape error aborts. -/
def oaeLoop (values : GoValues) : List (List Nat) → Except String (List (List Nat))
  | [] => .ok []
  | k :: ks =>
      match queryUnescape k with
      | none => .error "invalid URL escape"
      | some originalK =>
          let vals := sortLe bytesLe (valuesGet values originalK)
          (oaeLoop values ks).map fun rest =>
            vals.map (fun dupVal => k ++ 61 :: queryEscape dupVal) ++ rest

/-- orderAndEncodeUrlValues (source lines 191-217): escape the keys, sort
them, then per key sort the raw values and emit escaped k=v pairs joined
with ampersands. -/
def orderAndEncodeUrlValues (values : GoValues) : Except String (List Nat) :=
  (oaeLoop values (sortLe bytesLe (values.map fun p => queryEscape p.1))).map
    fun out => joinBytes [38] out

/-- The character loop of trimAll (source lines 340-354): collapse runs of
whitespace outside double quotes to a single space, pass quote characters
through while toggling the in-quote state. -/
def trimAllLoop : List Char → Bool → Bool → List Char
  | [], _, _ => []
  | c :: rest, inQuote, priorWhitespace =>
      if !inQuote && goIsSpace c then
        if !priorWhitespace then ' ' :: trimAllLoop rest inQuote true
        else trimAllLoop rest inQuote true
      else if c = '"' then c :: trimAllLoop rest (!inQuote) false
      else c :: trimAllLoop rest inQuote false

/-- trimAll (source lines 332-356): trim spaces from a header value, per
the Amazon spec. -/
def trimAll (val : String) : String :=
  String.mk (trimAllLoop (goTrimSpace val).data false false)

/-- The header association built by crHeaderMap: lowercased names to
comma-merged values; models the Go map of string to string. -/
abbrev HeaderAssoc := List (String × String)

def assocGet (m : HeaderAssoc) (k : String) : Option String :=
  (m.find? fun p => p.1 == k).map fun p => p.2

def assocUpdate (m : HeaderAssoc) (k v : String) : HeaderAssoc :=
  m.map fun p => if p.1 == k then (k, v) else p

/-- The range loop of crHeaderMap (source lines 225-240): process header
lines until the first blank, split each on the first colon, lowercase the
name, trim the value, and merge same-name headers with a comma. -/
def crHeaderLoop : List String → HeaderAssoc → List String → HeaderAssoc × List String
  | [], headers, keys => (headers, keys)
  | line :: rest, headers, keys =>
      if line = "" then (headers, keys)
      else
        match goSplitN2 ':' line with
        | [name, rawValue] =>
            match assocGet headers (goToLower name) with
            | some current =>
                crHeaderLoop rest
                  (assocUpdate headers (goToLower name) (current ++ "," ++ trimAll rawValue)) keys
            | none =>
                crHeaderLoop rest (headers ++ [(goToLower name, trimAll rawValue)])
                  (keys ++ [goToLower name])
        | _ => crHeaderLoop rest headers keys

/-- crHeaderMap (source lines 220-243): the canonical-request header map
and its byte-wise sorted key list. -/
def crHeaderMap (lines : List String) : HeaderAssoc × List String :=
  let hk := crHeaderLoop lines.tail [] []
  (hk.1, sortLe goStrLe hk.2)

/-- Stack-based segment cleaning of Go path.Clean: empty and dot segments
drop, dotdot pops (kept at the front of a relative path, dropped at the
root of a rooted one). The accumulator holds emitted segments reversed. -/
def pathCleanSegs (rooted : Bool) : List String → List String → List String
  | acc, [] => acc.reverse
  | acc, seg :: rest =>
      if seg = "" ∨ seg = "." then pathCleanSegs rooted acc rest
      else if seg = ".." then
        match acc with
        | top :: accRest =>
            if top = ".." then pathCleanSegs rooted (".." :: top :: accRest) rest
            else pathCleanSegs rooted accRest rest
        | [] => if rooted then pathCleanSegs rooted [] rest else pathCleanSegs rooted [".."] rest
      else pathCleanSegs rooted (seg :: acc) rest

/-- Modelled from Go path.Clean (stdlib, not in src/): lexically clean a
slash-separated path of dot and dotdot segments; empty input cleans to a
dot path. -/
def pathClean (p : String) : String :=
  if p = "" then "."
  else
    let rooted := p.data.head? = some '/'
    let cleaned := pathCleanSegs rooted [] (goSplit '/' p)
    if rooted then String.mk ('/' :: (String.intercalate "/" cleaned).data)
    else if cleaned.isEmpty then "."
    else String.intercalate "/" cleaned

def endsWithSlash (s : String) : Bool := s.data.getLast? == some '/'

/-- getRawPath (source lines 158-174). -/
def getRawPath (rawUrl : String) : String :=
  if rawUrl = "/" then "/"
  else
    let urlPath := (goSplitN2 '?' rawUrl).headD ""
    let cleaned := pathClean urlPath
    if endsWithSlash urlPath && !endsWithSlash cleaned then cleaned ++ "/"
    else cleaned

/-- getBody (source lines 176-189): the body is the CRLF-joined text after
the first blank line, nil when there is no blank line, the blank line is
the first line, or nothing follows it. -/
def getBody (reqLines : List String) : Option String :=
  let blankIdx := (reqLines.findIdx? fun l => l == "").getD 0
  if blankIdx > 0 ∧ reqLines.length > blankIdx + 1 then
    some (goJoin "\r\n" (reqLines.drop (blankIdx + 1)))
  else none

/-- hashSha256Body (source lines 315-330): lowercase hex SHA-256 of the
body bytes, hashing the empty string for a nil body. Go's hash.Write on
an in-memory buffer never returns an error, so the model is total. -/
def hashSha256Body (body : Option String) : String :=
  match body with
  | none => hexBytes (sha256 [])
  | some b => hexBytes (sha256 (utf8Bytes b))

/-- Modelled from Go net/url.ParseRequestURI (stdlib, not in src/),
restricted to what this package consumes: the raw query is everything
after the first question mark; an empty target or one that is neither an
absolute path nor an absolute URL is an error. -/
structure GoURL where
  rawQuery : String
  deriving Repr, DecidableEq

def hasSub (pat : List Char) : List Char → Bool
  | [] => pat.isEmpty
  | c :: rest => pat.isPrefixOf (c :: rest) || hasSub pat rest

def parseRequestURI (s : String) : Except String GoURL :=
  if s = "" then .error "empty url"
  else if s.data.head? = some '/' || hasSub "://".data s.data then
    .ok ⟨(goSplitN2 '?' s).getD 1 ""⟩
  else .error ("invalid URI for request " ++ s)

inductive CRErr
  | notEnoughData (req : String)
  | firstLineShort (line : String)
  | urlError (e : String)
  | queryError (e : String)
  deriving Repr, DecidableEq

structure CanonicalRequestT where
  canonicalRequest : String
  headers : String
  deriving Repr, DecidableEq

/-- CanonicalRequest (source lines 104-156). -/
def CanonicalRequest (req : String) : Except CRErr CanonicalRequestT :=
  let lines := splitCRLF req
  match lines with
  | [] => .error (.notEnoughData req)
  | line0 :: _ =>
      match goSplit ' ' line0 with
      | verb :: target :: _ :: _ =>
          match parseRequestURI target with
          | .error e => .error (.urlError e)
          | .ok reqUrl =>
              match orderAndEncodeUrlValues (goParseQuery (utf8Bytes reqUrl.rawQuery)) with
              | .error e => .error (.queryError e)
              | .ok qbytes =>
                  let hk := crHeaderMap lines
                  let headerLines := hk.2.map fun hkey => hkey ++ ":" ++ ((assocGet hk.1 hkey).getD "")
                  let headersSigned := goJoin ";" hk.2
                  let out := [goToUpper verb, getRawPath target, stringOfBytes qbytes] ++
                    headerLines ++ ["\n" ++ headersSigned, hashSha256Body (getBody lines)]
                  .ok ⟨goJoin "\n" out, headersSigned⟩
      | _ => .error (.firstLineShort line0)

/-- A Go time.Time as observed by this package: its two UTC renderings,
in the YYYYMMDD layout and the compact amz-date layout. -/
structure GoTime where
  yyyymmdd : String
  amzDate : String
  deriving Repr, DecidableEq

/-- CredentialScope (source lines 246-248). -/
def CredentialScope (t : GoTime) (regionName serviceName : String) : String :=
  t.yyyymmdd ++ "/" ++ regionName ++ "/" ++ serviceName ++ "/aws4_request"

/-- StringToSign (source lines 251-257). -/
def StringToSign (canonicalRequest credentialScope : String) (t : GoTime) : String :=
  "AWS4-HMAC-SHA256\n" ++ t.amzDate ++ "\n" ++ credentialScope ++ "\n" ++
    hexBytes (sha256 (utf8Bytes canonicalRequest))

/-- signHMAC (source lines 306-313); hmac.Write on an in-memory buffer
never returns an error, so the model is total. -/
def signHMAC (key : List Nat) (data : String) : List Nat :=
  hmacSha256 key (utf8Bytes data)

/-- SigningKey (source lines 288-304): chain HMAC-SHA256 through date,
region, service and the terminator, starting from AWS4 plus the secret. -/
def SigningKey (awsKey dateStamp regionName serviceName : String) : List Nat :=
  [dateStamp, regionName, serviceName, "aws4_request"].foldl
    (fun key d => signHMAC key d) (utf8Bytes ("AWS4" ++ awsKey))

/-- SignStringToSign (source lines 260-285). -/
def SignStringToSign (sts secretKey : String) : Except String String :=
  match goSplit '\n' sts with
  | [_, _, line3, _] =>
      match goSplit '/' line3 with
      | [dateStamp, region, service, _] =>
          .ok (hexBytes (signHMAC (SigningKey secretKey dateStamp region service) sts))
      | _ => .error ("Expected 4 elements in: " ++ line3)
  | _ => .error ("Expected 4 lines in sts:\n" ++ sts)

/-- A character-level model of Go fmt.Sprintf restricted to the s and v
verbs on string arguments, which behave identically. -/
def goSprintfS : List Char → List String → List Char
  | [], _ => []
  | '%' :: 's' :: rest, arg :: args => arg.data ++ goSprintfS rest args
  | '%' :: 's' :: rest, [] => "%!s(MISSING)".data ++ goSprintfS rest []
  | c :: rest, args => c :: goSprintfS rest args

/-- AuthHeaderValue (source lines 91-94). -/
def AuthHeaderValue (signature accessKey credentialScope : String) (cr : CanonicalRequestT) : String :=
  String.mk (goSprintfS "AWS4-HMAC-SHA256 Credential=%s/%s, SignedHeaders=%s, Signature=%s".data
    [accessKey, credentialScope, cr.headers, signature])

/-! ### net/http header map and ReusableRequest -/

def isTokenByte (n : Nat) : Bool :=
  isAlnumByte n || n == 33 || n == 35 || n == 36 || n == 37 || n == 38 || n == 39 ||
  n == 42 || n == 43 || n == 45 || n == 46 || n == 94 || n == 95 || n == 96 || n == 124 || n == 126

def canonHeaderAux : Bool → List Char → List Char
  | _, [] => []
  | up, c :: rest =>
      (if up then asciiUpperChar c else asciiLowerChar c) :: canonHeaderAux (c = '-') rest

/-- Modelled from Go net/textproto CanonicalMIMEHeaderKey (stdlib, not in
src/): uppercase the first letter and every letter after a hyphen,
lowercase the rest; a key containing a non-token byte is returned as is. -/
def canonKey (s : String) : String :=
  if s.data.all (fun c => isTokenByte c.toNat) then String.mk (canonHeaderAux true s.data) else s

/-- Go http.Header: ordered association from canonical names to value
lists. -/
abbrev HeaderMap := List (String × List String)

/-- Header.Get: first value under the canonical key, empty if absent. -/
def hGet (h : HeaderMap) (k : String) : String :=
  match h.find? fun p => p.1 == canonKey k with
  | some (_, v :: _) => v
  | _ => ""

/-- Header.Set: replace all values under the canonical key by one value. -/
def hSet (h : HeaderMap) (k v : String) : HeaderMap :=
  let ck := canonKey k
  if (h.find? fun p => p.1 == ck).isSome then
    h.map fun p => if p.1 == ck then (ck, [v]) else p
  else h ++ [(ck, [v])]

/-- A ReusableBody (source lines 358-365): a rewindable in-memory byte
buffer with a read cursor. -/
structure ReusableBodyM where
  content : String
  pos : Nat
  deriving Repr, DecidableEq

/-- The body field of a request: a rewindable ReusableBody, or some other
reader that was substituted in from outside (not rewindable). -/
inductive GoBody
  | reusable (rb : ReusableBodyM)
  | foreign
  deriving Repr, DecidableEq

/-- ReusableRequest (source lines 374-376): the request fields the signing
path reads and writes. -/
structure ReusableRequest where
  method : String
  url : String
  header : HeaderMap
  body : Option GoBody
  deriving Repr, DecidableEq

/-- The request-line-and-headers part of Go http.Request.Write (stdlib,
not in src/), abstracted as a function of the request fields it reads. -/
structure WireEnv where
  head : String → String → HeaderMap → String

/-- ReusableRequest.write (source lines 478-498): refuse a body that is
not a ReusableBody, serialize via http.Request.Write (header part plus
body bytes from the current cursor), then rewind the cursor to offset 0. -/
def rrWrite (env : WireEnv) (req : ReusableRequest) : Except String (String × ReusableRequest) :=
  match req.body with
  | some .foreign => .error "Not sure body can be reused (did req.Body get changed?)"
  | some (.reusable rb) =>
      .ok (env.head req.method req.url req.header ++ String.mk (rb.content.data.drop rb.pos),
           { req with body := some (.reusable ⟨rb.content, 0⟩) })
  | none => .ok (env.head req.method req.url req.header, req)

inductive SignErr
  | timeParse (input : String)
  | writeError (e : String)
  | canonicalError (e : CRErr)
  | signError (e : String)
  deriving Repr, DecidableEq

/-- The environment Sign reads outside the request: the two stdlib time
parsers (time.Parse with the RFC-1123 and amz-date layouts), the wall
clock, and the wire serializer. A parsed or current Go time.Time is
observed through its two UTC renderings (GoTime). -/
structure SignEnv where
  parseRFC1123 : String → Option GoTime
  parseAmzDate : String → Option GoTime
  now : GoTime
  wire : WireEnv

/-- The pipeline of Sign after the timestamp is resolved (source lines
64-87): serialize, build the canonical request, scope, string-to-sign and
signature, then install the Authorization header. Returns the possibly
mutated request and, on success, the installed header value. -/
def signWithTime (env : SignEnv) (req : ReusableRequest)
    (accessKey secretKey regionName serviceName : String) (t : GoTime) :
    ReusableRequest × Except SignErr String :=
  match rrWrite env.wire req with
  | .error e => (req, .error (.writeError e))
  | .ok (buff, req1) =>
      match CanonicalRequest buff with
      | .error e => (req1, .error (.canonicalError e))
      | .ok cr =>
          match SignStringToSign
              (StringToSign cr.canonicalRequest (CredentialScope t regionName serviceName) t)
              secretKey with
          | .error e => (req1, .error (.signError e))
          | .ok signature =>
              ({ req1 with
                  header := hSet req1.header "Authorization" (AuthHeaderValue signature accessKey (CredentialScope t regionName serviceName) cr) },
               .ok (AuthHeaderValue signature accessKey (CredentialScope t regionName serviceName) cr))

/-- ReusableRequest.Sign (source lines 44-88): resolve the timestamp from
a nonempty Date header (RFC-1123), else a nonempty x-amz-date header
(compact layout), else the current time, which is then written onto the
request as x-amz-date; then run the signing pipeline. -/
def Sign (env : SignEnv) (req : ReusableRequest)
    (accessKey secretKey regionName serviceName : String) :
    ReusableRequest × Except SignErr String :=
  if hGet req.header "Date" ≠ "" then
    match env.parseRFC1123 (hGet req.header "Date") with
    | none => (req, .error (.timeParse (hGet req.header "Date")))
    | some t => signWithTime env req accessKey secretKey regionName serviceName t
  else if hGet req.header "x-amz-date" ≠ "" then
    match env.parseAmzDate (hGet req.header "x-amz-date") with
    | none => (req, .error (.timeParse (hGet req.header "x-amz-date")))
    | some t => signWithTime env req accessKey secretKey regionName serviceName t
  else
    signWithTime env { req with header := hSet req.header "x-amz-date" env.now.amzDate }
      accessKey secretKey regionName serviceName env.now

end Sign4

namespace Spec

open GoModel Sign4

/-! ### Spec-side definitions, written from the specification's words,
to be compared against the embedded source functions. -/

/-- The specification's order on query pairs: by encoded key, then by
value for pairs sharing a key. Instantiated with raw (decoded) values in
the amended claim, and with encoded values in the original. -/
def lexPairLe (p q : List Nat × List Nat) : Bool :=
  if p.1 = q.1 then bytesLe p.2 q.2 else bytesLe p.1 q.1

/-- All (encoded key, raw value) pairs of a query, duplicates preserved. -/
def queryFlatPairs (values : GoValues) : List (List Nat × List Nat) :=
  values.flatMap fun p => p.2.map fun v => (queryEscape p.1, v)

/-- The pair list demanded by the (amended) specification: all pairs,
sorted by encoded key and then by raw value. -/
def specQueryPairs (values : GoValues) : List (List Nat × List Nat) :=
  sortLe lexPairLe (queryFlatPairs values)

/-- The (encoded key, raw value) pairs in the emission order of
orderAndEncodeUrlValues: escaped keys sorted, then per key the raw values
sorted. -/
def codeQueryPairs (values : GoValues) : List (List Nat × List Nat) :=
  (sortLe bytesLe (values.map fun p => queryEscape p.1)).flatMap fun ek =>
    (sortLe bytesLe (valuesGet values ((queryUnescape ek).getD []))).map fun v => (ek, v)

def validBytesB (l : List Nat) : Bool := l.all fun b => decide (b < 256)

/-- Well-formedness of a Go url.Values: keys distinct (it is a map) and
made of bytes. -/
def valuesWF (values : GoValues) : Bool :=
  decide (values.map fun p => p.1).Nodup && values.all fun p => validBytesB p.1

/-- The specification's reading of header processing: walk the lines up
to the first blank, split each on the first colon (lines without one are
skipped), lowercase the name and trim the value. -/
def headerPairs : List String → List (String × String)
  | [] => []
  | line :: rest =>
      if line = "" then []
      else
        match goSplitN2 ':' line with
        | [name, rawValue] => (goToLower name, trimAll rawValue) :: headerPairs rest
        | _ => headerPairs rest

def firstOccAux (seen : List String) : List String → List String
  | [] => []
  | k :: ks => if k ∈ seen then firstOccAux seen ks else k :: firstOccAux (k :: seen) ks

/-- First occurrences of a list's elements, in encounter order. -/
def firstOcc (l : List String) : List String := firstOccAux [] l

/-- The specification's merged header value: the comma-join of the values
under one lowercased name, in encounter order; none if the name is absent. -/
def mergedValue (pairs : List (String × String)) (k : String) : Option String :=
  match (pairs.filter fun p => p.1 == k).map (fun p => p.2) with
  | [] => none
  | vs => some (goJoin "," vs)

/-- Comma-merge of an already-accumulated value with the merge of the
remaining ones; the shape the header loop's accumulator satisfies. -/
def mergeOpt (a b : Option String) : Option String :=
  match a, b with
  | some cur, some m => some (cur ++ "," ++ m)
  | some cur, none => some cur
  | none, m => m

end Spec

namespace Lemmas

open GoModel Sign4 Spec

/-! ### Order lemmas for byte-wise comparison -/

theorem bytesLe_cons {a b : Nat} {as bs : List Nat} :
    bytesLe (a :: as) (b :: bs) = true ↔ a < b ∨ (a = b ∧ bytesLe as bs = true) := by
  simp only [bytesLe]
  split
  · simp; omega
  · split
    · simp; omega
    · have : a = b := by omega
      simp [this]

theorem bytesLe_total : ∀ a b : List Nat, bytesLe a b = true ∨ bytesLe b a = true
  | [], _ => Or.inl rfl
  | _ :: _, [] => Or.inr rfl
  | a :: as, b :: bs => by
      rcases Nat.lt_trichotomy a b with h | h | h
      · exact Or.inl (bytesLe_cons.mpr (Or.inl h))
      · subst h
        rcases bytesLe_total as bs with h2 | h2
        · exact Or.inl (bytesLe_cons.mpr (Or.inr ⟨rfl, h2⟩))
        · exact Or.inr (bytesLe_cons.mpr (Or.inr ⟨rfl, h2⟩))
      · exact Or.inr (bytesLe_cons.mpr (Or.inl h))

theorem bytesLe_trans : ∀ a b c : List Nat,
    bytesLe a b = true → bytesLe b c = true → bytesLe a c = true
  | [], _, _, _, _ => rfl
  | _ :: _, [], _, h, _ => by simp [bytesLe] at h
  | _ :: _, _ :: _, [], _, h => by simp [bytesLe] at h
  | a :: as, b :: bs, c :: cs, h1, h2 => by
      rcases bytesLe_cons.mp h1 with hlt1 | ⟨heq1, htl1⟩ <;>
        rcases bytesLe_cons.mp h2 with hlt2 | ⟨heq2, htl2⟩
      · exact bytesLe_cons.mpr (Or.inl (by omega))
      · exact bytesLe_cons.mpr (Or.inl (by omega))
      · exact bytesLe_cons.mpr (Or.inl (by omega))
      · exact bytesLe_cons.mpr (Or.inr ⟨by omega, bytesLe_trans as bs cs htl1 htl2⟩)

theorem bytesLe_antisymm : ∀ a b : List Nat,
    bytesLe a b = true → bytesLe b a = true → a = b
  | [], [], _, _ => rfl
  | [], _ :: _, _, h => by simp [bytesLe] at h
  | _ :: _, [], h, _ => by simp [bytesLe] at h
  | a :: as, b :: bs, h1, h2 => by
      rcases bytesLe_cons.mp h1 with hlt1 | ⟨heq1, htl1⟩ <;>
        rcases bytesLe_cons.mp h2 with hlt2 | ⟨heq2, htl2⟩
      · exact (by omega : False).elim
      · exact (by omega : False).elim
      · exact (by omega : False).elim
      · cases heq1
        rw [bytesLe_antisymm as bs htl1 htl2]

instance : IsTotal (List Nat) (fun a b => bytesLe a b = true) := ⟨bytesLe_total⟩

instance : IsTrans (List Nat) (fun a b => bytesLe a b = true) := ⟨bytesLe_trans⟩

instance : IsAntisymm (List Nat) (fun a b => bytesLe a b = true) := ⟨bytesLe_antisymm⟩

instance : IsTotal String (fun a b => goStrLe a b = true) :=
  ⟨fun a b => bytesLe_total (utf8Bytes a) (utf8Bytes b)⟩

instance : IsTrans String (fun a b => goStrLe a b = true) :=
  ⟨fun a b c => bytesLe_trans (utf8Bytes a) (utf8Bytes b) (utf8Bytes c)⟩

theorem lexPairLe_total : ∀ p q : List Nat × List Nat,
    lexPairLe p q = true ∨ lexPairLe q p = true := by
  intro p q
  by_cases h : p.1 = q.1
  · simp only [lexPairLe, if_pos h, if_pos h.symm]
    exact bytesLe_total p.2 q.2
  · simp only [lexPairLe, if_neg h, if_neg (Ne.symm h)]
    exact bytesLe_total p.1 q.1

theorem lexPairLe_trans : ∀ p q r : List Nat × List Nat,
    lexPairLe p q = true → lexPairLe q r = true → lexPairLe p r = true := by
  intro p q r h1 h2
  by_cases hpq : p.1 = q.1 <;> by_cases hqr : q.1 = r.1
  · have hpr : p.1 = r.1 := hpq.trans hqr
    simp only [lexPairLe, if_pos hpq] at h1
    simp only [lexPairLe, if_pos hqr] at h2
    simp only [lexPairLe, if_pos hpr]
    exact bytesLe_trans _ _ _ h1 h2
  · have hpr : ¬ p.1 = r.1 := fun e => hqr (hpq.symm.trans e)
    simp only [lexPairLe, if_neg hqr] at h2
    simp only [lexPairLe, if_neg hpr]
    rw [hpq]
    exact h2
  · have hpr : ¬ p.1 = r.1 := fun e => hpq (e.trans hqr.symm)
    simp only [lexPairLe, if_neg hpq] at h1
    simp only [lexPairLe, if_neg hpr]
    rw [← hqr]
    exact h1
  · simp only [lexPairLe, if_neg hpq] at h1
    simp only [lexPairLe, if_neg hqr] at h2
    by_cases hpr : p.1 = r.1
    · rw [← hpr] at h2
      exact absurd (bytesLe_antisymm _ _ h1 h2) hpq
    · simp only [lexPairLe, if_neg hpr]
      exact bytesLe_trans _ _ _ h1 h2

theorem lexPairLe_antisymm : ∀ p q : List Nat × List Nat,
    lexPairLe p q = true → lexPairLe q p = true → p = q := by
  intro p q h1 h2
  by_cases hpq : p.1 = q.1
  · simp only [lexPairLe, if_pos hpq] at h1
    simp only [lexPairLe, if_pos hpq.symm] at h2
    exact Prod.ext hpq (bytesLe_antisymm _ _ h1 h2)
  · simp only [lexPairLe, if_neg hpq] at h1
    simp only [lexPairLe, if_neg (Ne.symm hpq)] at h2
    exact absurd (bytesLe_antisymm _ _ h1 h2) hpq

instance : IsTotal (List Nat × List Nat) (fun p q => lexPairLe p q = true) := ⟨lexPairLe_total⟩

instance : IsTrans (List Nat × List Nat) (fun p q => lexPairLe p q = true) := ⟨lexPairLe_trans⟩

instance : IsAntisymm (List Nat × List Nat) (fun p q => lexPairLe p q = true) := ⟨lexPairLe_antisymm⟩

/-! ### The escape-unescape round trip -/

theorem queryUnescape_cons_plain (b : Nat) (rest : List Nat) (h37 : ¬ b = 37) (h43 : ¬ b = 43) :
    queryUnescape (b :: rest) = (queryUnescape rest).map fun r => b :: r := by
  rcases rest with _ | ⟨x, _ | ⟨y, tail⟩⟩ <;> simp [queryUnescape, h37, h43]

theorem queryUnescape_cons_plus (rest : List Nat) :
    queryUnescape (43 :: rest) = (queryUnescape rest).map fun r => 32 :: r := by
  rcases rest with _ | ⟨x, _ | ⟨y, tail⟩⟩ <;> simp [queryUnescape]

theorem queryUnescape_cons_pct (h l : Nat) (rest : List Nat) (hv lv : Nat)
    (hh : unhexDigit h = some hv) (hl : unhexDigit l = some lv) :
    queryUnescape (37 :: h :: l :: rest) = (queryUnescape rest).map fun r => (16 * hv + lv) :: r := by
  simp [queryUnescape, hh, hl]

theorem unhex_upperHex : ∀ n < 16, unhexDigit (upperHexByte n) = some n := by decide

theorem noEscape_ne : ∀ b < 256, queryNoEscape b = true → ¬ b = 37 ∧ ¬ b = 43 := by decide

/-- Unescaping an escaped byte string gives it back; in particular the
escaped-key unescape inside orderAndEncodeUrlValues can never fail. -/
theorem unescape_escape : ∀ l : List Nat, validBytesB l = true →
    queryUnescape (queryEscape l) = some l := by
  intro l
  induction l with
  | nil => intro _; rfl
  | cons b t ih =>
    intro hv
    simp only [validBytesB, List.all_cons, Bool.and_eq_true, decide_eq_true_eq] at hv
    obtain ⟨hb, hvt⟩ := hv
    have iht := ih (by simpa [validBytesB] using hvt)
    simp only [queryEscape] at *
    rw [List.flatMap_cons]
    by_cases hne : queryNoEscape b = true
    · obtain ⟨h37, h43⟩ := noEscape_ne b hb hne
      rw [show escByte b = [b] from by simp [escByte, hne], List.singleton_append,
        queryUnescape_cons_plain b _ h37 h43, iht]
      rfl
    · by_cases h32 : b = 32
      · subst h32
        rw [show escByte 32 = [43] from rfl, List.singleton_append, queryUnescape_cons_plus, iht]
        rfl
      · have hdiv : b / 16 < 16 := by omega
        have hmod : b % 16 < 16 := by omega
        rw [show escByte b = [37, upperHexByte (b / 16), upperHexByte (b % 16)] from by
          simp [escByte, hne, h32]]
        rw [List.cons_append, List.cons_append, List.cons_append, List.nil_append,
          queryUnescape_cons_pct _ _ _ _ _ (unhex_upperHex _ hdiv) (unhex_upperHex _ hmod), iht]
        simp
        omega

theorem queryEscape_inj {a b : List Nat} (ha : validBytesB a = true) (hb : validBytesB b = true)
    (h : queryEscape a = queryEscape b) : a = b := by
  have := (unescape_escape a ha).symm.trans (h ▸ unescape_escape b hb)
  exact Option.some.inj this

/-! ### Line splitting is never empty -/

theorem splitCRLFAux_ne_nil : ∀ l : List Char, splitCRLFAux l ≠ [] := by
  intro l
  induction l using splitCRLFAux.induct with
  | case1 => simp [splitCRLFAux]
  | case2 rest ih => simp [splitCRLFAux]
  | case3 c rest hne hnil ih => exact absurd hnil ih
  | case4 c rest hne x xs hcons ih =>
      rw [splitCRLFAux.eq_3 c rest hne, hcons]
      simp

theorem splitCRLF_ne_nil (s : String) : splitCRLF s ≠ [] := by
  simp only [splitCRLF, ne_eq, List.map_eq_nil_iff]
  exact splitCRLFAux_ne_nil s.data

/-! ### Header-map lemmas -/

theorem assocGet_assocUpdate_self (m : HeaderAssoc) (k v : String) :
    assocGet (assocUpdate m k v) k = (assocGet m k).map fun _ => v := by
  induction m with
  | nil => rfl
  | cons p t ih =>
      unfold assocUpdate assocGet at *
      by_cases hp : p.1 = k
      · rw [List.map_cons, if_pos (by simp [hp] : (p.1 == k) = true)]
        rw [List.find?_cons_of_pos _ (by simp), List.find?_cons_of_pos _ (by simp [hp])]
        rfl
      · rw [List.map_cons, if_neg (by simp [hp] : ¬ (p.1 == k) = true)]
        rw [List.find?_cons_of_neg _ (by simp [hp]), List.find?_cons_of_neg _ (by simp [hp])]
        exact ih

theorem assocGet_assocUpdate_other (m : HeaderAssoc) (k v x : String) (hx : ¬ x = k) :
    assocGet (assocUpdate m k v) x = assocGet m x := by
  induction m with
  | nil => rfl
  | cons p t ih =>
      unfold assocUpdate assocGet at *
      by_cases hp : p.1 = k
      · rw [List.map_cons, if_pos (by simp [hp] : (p.1 == k) = true)]
        rw [List.find?_cons_of_neg _ (by simp [Ne.symm hx]),
          List.find?_cons_of_neg _ (by simp [hp, Ne.symm hx])]
        exact ih
      · rw [List.map_cons, if_neg (by simp [hp] : ¬ (p.1 == k) = true)]
        by_cases hpx : p.1 = x
        · rw [List.find?_cons_of_pos _ (by simp [hpx]), List.find?_cons_of_pos _ (by simp [hpx])]
        · rw [List.find?_cons_of_neg _ (by simp [hpx]), List.find?_cons_of_neg _ (by simp [hpx])]
          exact ih

theorem assocGet_append_one (m : HeaderAssoc) (k0 v0 x : String) :
    assocGet (m ++ [(k0, v0)]) x =
      match assocGet m x with
      | some v => some v
      | none => if x = k0 then some v0 else none := by
  unfold assocGet
  rw [List.find?_append]
  cases hf : m.find? (fun p => p.1 == x) with
  | some p => simp
  | none =>
      simp only [Option.none_or]
      by_cases hk : x = k0
      · rw [List.find?_cons_of_pos _ (by simp [hk])]
        simp [hk]
      · rw [List.find?_cons_of_neg _ (by simp [Ne.symm hk])]
        simp [hk]

theorem firstOccAux_congr : ∀ (l : List String) (s1 s2 : List String),
    (∀ x, x ∈ s1 ↔ x ∈ s2) → firstOccAux s1 l = firstOccAux s2 l
  | [], _, _, _ => rfl
  | k :: t, s1, s2, h => by
      unfold firstOccAux
      by_cases hk : k ∈ s1
      · rw [if_pos hk, if_pos ((h k).mp hk)]
        exact firstOccAux_congr t s1 s2 h
      · rw [if_neg hk, if_neg (fun hc => hk ((h k).mpr hc))]
        rw [firstOccAux_congr t (k :: s1) (k :: s2)
          (fun x => by simp only [List.mem_cons]; rw [h x])]

theorem mergedValue_nil (k : String) : mergedValue [] k = none := rfl

theorem mergedValue_cons_self (label value : String) (pairs : List (String × String)) :
    mergedValue ((label, value) :: pairs) label =
      some (match mergedValue pairs label with
            | none => value
            | some m => value ++ "," ++ m) := by
  unfold mergedValue
  rw [List.filter_cons_of_pos (by simp), List.map_cons]
  cases hf : (pairs.filter fun p => p.1 == label).map (fun p => p.2) with
  | nil => rfl
  | cons a t => rfl

theorem mergedValue_cons_other (label value k : String) (pairs : List (String × String))
    (hx : ¬ label = k) :
    mergedValue ((label, value) :: pairs) k = mergedValue pairs k := by
  unfold mergedValue
  rw [List.filter_cons_of_neg (by simp [hx])]

theorem crHeaderLoop_spec : ∀ (ls : List String) (headers : HeaderAssoc) (keys : List String),
    (∀ x, (assocGet headers x).isSome ↔ x ∈ keys) →
    ((crHeaderLoop ls headers keys).2 =
      keys ++ firstOccAux keys ((headerPairs ls).map fun p => p.1))
    ∧ (∀ k, assocGet (crHeaderLoop ls headers keys).1 k =
        mergeOpt (assocGet headers k) (mergedValue (headerPairs ls) k)) := by
  intro ls
  induction ls with
  | nil =>
      intro headers keys hinv
      refine ⟨by dsimp only [crHeaderLoop, headerPairs, firstOccAux]; rw [List.append_nil], ?_⟩
      intro k
      show assocGet headers k = mergeOpt (assocGet headers k) (mergedValue [] k)
      rw [mergedValue_nil]
      cases assocGet headers k <;> rfl
  | cons line rest ih =>
      intro headers keys hinv
      by_cases hbl : line = ""
      · dsimp only [crHeaderLoop, headerPairs]
        rw [if_pos hbl, if_pos hbl]
        refine ⟨by dsimp only [firstOccAux]; rw [List.append_nil], ?_⟩
        intro k
        rw [mergedValue_nil]
        cases assocGet headers k <;> rfl
      · dsimp only [crHeaderLoop, headerPairs]
        rw [if_neg hbl, if_neg hbl]
        rcases hsp : goSplitN2 ':' line with _ | ⟨name, _ | ⟨rawValue, _ | ⟨c, t2⟩⟩⟩ <;> dsimp only
        · exact ih headers keys hinv
        · exact ih headers keys hinv
        · cases hget : assocGet headers (goToLower name) with
          | some cur =>
              have hinv2 : ∀ x,
                  (assocGet (assocUpdate headers (goToLower name) (cur ++ "," ++ trimAll rawValue)) x).isSome
                    ↔ x ∈ keys := by
                intro x
                by_cases hx : x = goToLower name
                · subst hx
                  rw [assocGet_assocUpdate_self, hget]
                  simp only [Option.map, Option.isSome_some, true_iff]
                  exact (hinv (goToLower name)).mp (by rw [hget]; rfl)
                · rw [assocGet_assocUpdate_other _ _ _ _ hx]
                  exact hinv x
              obtain ⟨iha, ihb⟩ := ih _ keys hinv2
              have hmem : goToLower name ∈ keys := (hinv _).mp (by rw [hget]; rfl)
              constructor
              · rw [iha, List.map_cons]
                simp only [firstOccAux, if_pos hmem]
              · intro k
                rw [ihb k]
                by_cases hk : k = goToLower name
                · subst hk
                  rw [assocGet_assocUpdate_self, hget, mergedValue_cons_self]
                  cases hrest : mergedValue (headerPairs rest) (goToLower name) with
                  | none => rfl
                  | some m => simp [mergeOpt, String.append_assoc]
                · rw [assocGet_assocUpdate_other _ _ _ _ hk,
                    mergedValue_cons_other _ _ _ _ (fun h => hk h.symm)]
          | none =>
              have hinv2 : ∀ x,
                  (assocGet (headers ++ [(goToLower name, trimAll rawValue)]) x).isSome
                    ↔ x ∈ keys ++ [goToLower name] := by
                intro x
                rw [assocGet_append_one]
                by_cases hx : x = goToLower name
                · subst hx
                  rw [hget]
                  simp
                · cases hg : assocGet headers x with
                  | some v =>
                      simp only [Option.isSome_some, true_iff, List.mem_append]
                      exact Or.inl ((hinv x).mp (by rw [hg]; rfl))
                  | none =>
                      rw [if_neg hx]
                      simp only [Option.isSome_none, Bool.false_eq_true, false_iff,
                        List.mem_append, List.mem_singleton]
                      rintro (hc | hc)
                      · have := (hinv x).mpr hc
                        rw [hg] at this
                        simp at this
                      · exact hx hc
              obtain ⟨iha, ihb⟩ := ih _ _ hinv2
              have hnmem : goToLower name ∉ keys := by
                intro hc
                have := (hinv _).mpr hc
                rw [hget] at this
                simp at this
              constructor
              · rw [iha, List.map_cons]
                simp only [firstOccAux, if_neg hnmem]
                rw [List.append_assoc, List.singleton_append]
                rw [firstOccAux_congr _ (keys ++ [goToLower name]) (goToLower name :: keys)
                  (fun x => by simp [List.mem_append, List.mem_cons, or_comm])]
              · intro k
                rw [ihb k, assocGet_append_one]
                by_cases hk : k = goToLower name
                · subst hk
                  rw [hget, if_pos rfl, mergedValue_cons_self]
                  cases hrest : mergedValue (headerPairs rest) (goToLower name) with
                  | none => rfl
                  | some m => rfl
                · rw [mergedValue_cons_other _ _ _ _ (fun h => hk h.symm)]
                  cases hg : assocGet headers k with
                  | some v => rfl
                  | none => rw [if_neg hk]
        · exact ih headers keys hinv

/-! ### Query-pair ordering lemmas -/

theorem pairwise_flatMap {α β : Type} {R : β → β → Prop} :
    ∀ (l : List α) (f : α → List β),
      (∀ a ∈ l, (f a).Pairwise R) →
      l.Pairwise (fun a b => ∀ x ∈ f a, ∀ y ∈ f b, R x y) →
      (l.flatMap f).Pairwise R
  | [], _, _, _ => by simp
  | a :: t, f, hin, hcr => by
      rw [List.flatMap_cons]
      rcases List.pairwise_cons.mp hcr with ⟨hhead, htail⟩
      refine List.pairwise_append.mpr
        ⟨hin a (List.mem_cons_self a t),
         pairwise_flatMap t f (fun b hb => hin b (List.mem_cons_of_mem _ hb)) htail, ?_⟩
      intro x hx y hy
      rcases List.mem_flatMap.mp hy with ⟨b, hb, hyb⟩
      exact hhead b hb x hx y hyb

theorem valuesGet_mem {values : GoValues}
    (hnd : (values.map fun p => p.1).Nodup) :
    ∀ p ∈ values, valuesGet values p.1 = p.2 := by
  induction values with
  | nil => simp
  | cons q t ih =>
      intro p hp
      rcases List.mem_cons.mp hp with rfl | hp'
      · unfold valuesGet
        rw [List.find?_cons_of_pos _ (by simp)]
        rfl
      · have hq : ¬ q.1 = p.1 := by
          simp only [List.map_cons, List.nodup_cons] at hnd
          intro he
          exact hnd.1 (he ▸ List.mem_map_of_mem (fun r => r.1) hp')
        have ht : (t.map fun p => p.1).Nodup := by
          simp only [List.map_cons, List.nodup_cons] at hnd
          exact hnd.2
        unfold valuesGet at ih ⊢
        rw [List.find?_cons_of_neg _ (by simp [hq])]
        exact ih ht p hp'

theorem oaeLoop_ok (values : GoValues) :
    ∀ ks : List (List Nat), (∀ k ∈ ks, ∃ dk, queryUnescape k = some dk) →
      oaeLoop values ks = .ok (ks.flatMap fun k =>
        (sortLe bytesLe (valuesGet values ((queryUnescape k).getD []))).map
          fun v => k ++ 61 :: queryEscape v) := by
  intro ks
  induction ks with
  | nil => intro _; rfl
  | cons k t ih =>
      intro h
      obtain ⟨dk, hdk⟩ := h k (List.mem_cons_self k t)
      rw [List.flatMap_cons]
      simp only [oaeLoop]
      rw [hdk, ih (fun x hx => h x (List.mem_cons_of_mem _ hx))]
      rfl

theorem valuesWF_parts {values : GoValues} (h : valuesWF values = true) :
    (values.map fun p => p.1).Nodup ∧ ∀ p ∈ values, validBytesB p.1 = true := by
  simp only [valuesWF, Bool.and_eq_true, decide_eq_true_eq, List.all_eq_true] at h
  exact h

theorem codeQueryPairs_perm {values : GoValues} (hwf : valuesWF values = true) :
    List.Perm (codeQueryPairs values) (queryFlatPairs values) := by
  obtain ⟨hnd, hval⟩ := valuesWF_parts hwf
  unfold codeQueryPairs queryFlatPairs
  refine (List.Perm.flatMap_right _ (List.perm_insertionSort _ _)).trans ?_
  rw [List.flatMap_map]
  have heq : (values.flatMap fun p =>
      (sortLe bytesLe (valuesGet values ((queryUnescape (queryEscape p.1)).getD []))).map
        fun v => (queryEscape p.1, v)) =
      values.flatMap fun p => (sortLe bytesLe p.2).map fun v => (queryEscape p.1, v) := by
    refine List.flatMap_congr ?_
    intro p hp
    rw [unescape_escape p.1 (hval p hp), show (some p.1).getD [] = p.1 from rfl,
      valuesGet_mem hnd p hp]
  rw [heq]
  exact List.Perm.flatMap_left values (fun p _ => List.Perm.map _ (List.perm_insertionSort _ _))

theorem escapedKeys_nodup {values : GoValues} (hwf : valuesWF values = true) :
    (values.map fun p => queryEscape p.1).Nodup := by
  obtain ⟨hnd, hval⟩ := valuesWF_parts hwf
  have hnd2 : ((values.map fun p => p.1).map queryEscape).Nodup := by
    refine List.Nodup.map_on ?_ hnd
    intro a ha b hb hab
    rcases List.mem_map.mp ha with ⟨pa, hpa, rfl⟩
    rcases List.mem_map.mp hb with ⟨pb, hpb, rfl⟩
    exact queryEscape_inj (hval pa hpa) (hval pb hpb) hab
  simpa [List.map_map] using hnd2

theorem codeQueryPairs_sorted {values : GoValues} (hwf : valuesWF values = true) :
    (codeQueryPairs values).Pairwise fun p q => lexPairLe p q = true := by
  unfold codeQueryPairs
  refine pairwise_flatMap _ _ ?_ ?_
  · intro ek _
    refine List.Pairwise.map _ ?_ (List.sorted_insertionSort _ _)
    intro v v' hvv
    simp only [lexPairLe, if_pos rfl]
    exact hvv
  · have hsorted := List.sorted_insertionSort (fun a b => bytesLe a b = true)
      (values.map fun p => queryEscape p.1)
    have hnds : (sortLe bytesLe (values.map fun p => queryEscape p.1)).Nodup :=
      (List.perm_insertionSort _ _).nodup_iff.mpr (escapedKeys_nodup hwf)
    have hcomb := List.Pairwise.and hsorted hnds
    refine hcomb.imp ?_
    intro a b hab
    intro x hx y hy
    rcases List.mem_map.mp hx with ⟨v, _, rfl⟩
    rcases List.mem_map.mp hy with ⟨v2, _, rfl⟩
    simp only [lexPairLe, if_neg hab.2]
    exact hab.1

/-! ### Header map and signing-pipeline lemmas -/

theorem find?_hSet_map_ne (h : HeaderMap) (ck ck' : String) (v : String) (hne : ck ≠ ck') :
    (h.map fun p => if p.1 == ck then (ck, [v]) else p).find? (fun p => p.1 == ck') =
      h.find? (fun p => p.1 == ck') := by
  induction h with
  | nil => rfl
  | cons p t ih =>
    rw [List.map_cons]
    by_cases hp : p.1 = ck
    · rw [if_pos (by simp [hp] : (p.1 == ck) = true)]
      rw [List.find?_cons_of_neg _ (by simp [hne]), List.find?_cons_of_neg _ (by simp [hp, hne])]
      exact ih
    · rw [if_neg (by simp [hp] : ¬ (p.1 == ck) = true)]
      by_cases hp' : p.1 = ck'
      · rw [List.find?_cons_of_pos _ (by simp [hp']), List.find?_cons_of_pos _ (by simp [hp'])]
      · rw [List.find?_cons_of_neg _ (by simp [hp']), List.find?_cons_of_neg _ (by simp [hp'])]
        exact ih

theorem find?_hSet_map_same (h : HeaderMap) (ck : String) (v : String)
    (hf : (h.find? fun p => p.1 == ck).isSome) :
    (h.map fun p => if p.1 == ck then (ck, [v]) else p).find? (fun p => p.1 == ck) =
      some (ck, [v]) := by
  induction h with
  | nil => simp at hf
  | cons p t ih =>
    rw [List.map_cons]
    by_cases hp : p.1 = ck
    · rw [if_pos (by simp [hp] : (p.1 == ck) = true)]
      rw [List.find?_cons_of_pos _ (by simp)]
    · rw [if_neg (by simp [hp] : ¬ (p.1 == ck) = true)]
      rw [List.find?_cons_of_neg _ (by simp [hp])]
      refine ih ?_
      rw [List.find?_cons_of_neg _ (by simp [hp])] at hf
      exact hf

theorem hGet_hSet_ne (h : HeaderMap) (k k' v : String) (hne : canonKey k ≠ canonKey k') :
    hGet (hSet h k v) k' = hGet h k' := by
  unfold hGet hSet
  by_cases hf : (h.find? fun p => p.1 == canonKey k).isSome
  · simp only [hf, if_pos]
    rw [find?_hSet_map_ne h (canonKey k) (canonKey k') v hne]
  · simp only [hf, Bool.false_eq_true, if_false]
    rw [List.find?_append]
    have hone : ([(canonKey k, [v])].find? fun p => p.1 == canonKey k') = none := by
      rw [List.find?_cons_of_neg _ (by simp [hne])]
      rfl
    cases hh : h.find? fun p => p.1 == canonKey k' <;> simp [hh, hone]

theorem hGet_hSet_same (h : HeaderMap) (k v : String) :
    hGet (hSet h k v) k = v := by
  unfold hGet hSet
  by_cases hf : (h.find? fun p => p.1 == canonKey k).isSome
  · simp only [hf, if_pos]
    rw [find?_hSet_map_same h (canonKey k) v hf]
  · simp only [hf, Bool.false_eq_true, if_false]
    rw [List.find?_append]
    have hnone : (h.find? fun p => p.1 == canonKey k) = none := by
      cases hh : h.find? fun p => p.1 == canonKey k
      · rfl
      · simp [hh] at hf
    rw [hnone]
    rw [List.find?_cons_of_pos _ (by simp)]
    rfl

theorem rrWrite_header (env : WireEnv) (req : ReusableRequest) (out : String)
    (req' : ReusableRequest) (h : rrWrite env req = .ok (out, req')) :
    req'.header = req.header := by
  unfold rrWrite at h
  rcases hb : req.body with _ | (rb | _) <;> rw [hb] at h <;> simp at h
  · rw [← h.2]
  · rw [← h.2]

theorem signWithTime_auth_ok (env : SignEnv) (req : ReusableRequest)
    (ak sk rg sv : String) (t : GoTime) (ah : String)
    (h : (signWithTime env req ak sk rg sv t).2 = .ok ah) :
    hGet (signWithTime env req ak sk rg sv t).1.header "Authorization" = ah := by
  unfold signWithTime at h ⊢
  rcases hw : rrWrite env.wire req with e | ⟨buff, req1⟩ <;> rw [hw] at h <;> dsimp only at h ⊢
  · exact Except.noConfusion h
  · rcases hcr : CanonicalRequest buff with e | cr <;> rw [hcr] at h <;> dsimp only at h ⊢
    · exact Except.noConfusion h
    · rcases hsig : SignStringToSign
          (StringToSign cr.canonicalRequest (CredentialScope t rg sv) t) sk with e | signature <;>
        rw [hsig] at h <;> dsimp only at h ⊢
      · exact Except.noConfusion h
      · rw [hGet_hSet_same]
        exact Except.ok.inj h

theorem signWithTime_auth_err (env : SignEnv) (req : ReusableRequest)
    (ak sk rg sv : String) (t : GoTime) (e0 : SignErr)
    (h : (signWithTime env req ak sk rg sv t).2 = .error e0) :
    hGet (signWithTime env req ak sk rg sv t).1.header "Authorization" =
      hGet req.header "Authorization" := by
  unfold signWithTime at h ⊢
  rcases hw : rrWrite env.wire req with e | ⟨buff, req1⟩ <;> rw [hw] at h <;> dsimp only at h ⊢
  have hh := rrWrite_header env.wire req buff req1 hw
  rcases hcr : CanonicalRequest buff with e | cr <;> rw [hcr] at h <;> dsimp only at h ⊢
  · rw [hh]
  · rcases hsig : SignStringToSign
        (StringToSign cr.canonicalRequest (CredentialScope t rg sv) t) sk with e | signature <;>
      rw [hsig] at h <;> dsimp only at h ⊢
    · rw [hh]
    · exact Except.noConfusion h

theorem signWithTime_no_timeParse (env : SignEnv) (req : ReusableRequest)
    (ak sk rg sv : String) (t : GoTime) (d : String) :
    (signWithTime env req ak sk rg sv t).2 ≠ .error (.timeParse d) := by
  unfold signWithTime
  rcases hw : rrWrite env.wire req with e | ⟨buff, req1⟩ <;> dsimp only
  · simp
  · rcases hcr : CanonicalRequest buff with e | cr <;> dsimp only
    · simp
    · rcases hsig : SignStringToSign
          (StringToSign cr.canonicalRequest (CredentialScope t rg sv) t) sk with e | signature <;>
        dsimp only
      · simp
      · simp

theorem signWithTime_header_other (env : SignEnv) (req : ReusableRequest)
    (ak sk rg sv : String) (t : GoTime) (k : String)
    (hne : canonKey "Authorization" ≠ canonKey k) :
    hGet (signWithTime env req ak sk rg sv t).1.header k = hGet req.header k := by
  unfold signWithTime
  rcases hw : rrWrite env.wire req with e | ⟨buff, req1⟩ <;> dsimp only
  have hh := rrWrite_header env.wire req buff req1 hw
  rcases hcr : CanonicalRequest buff with e | cr <;> dsimp only
  · rw [hh]
  · rcases hsig : SignStringToSign
        (StringToSign cr.canonicalRequest (CredentialScope t rg sv) t) sk with e | signature <;>
      dsimp only
    · rw [hh]
    · rw [hGet_hSet_ne _ _ _ _ hne, hh]


end Lemmas

/-! ## The claims -/

open GoModel Sign4 Spec Lemmas

/-- C1: the claim says every query key and value is percent-encoded with
the unreserved set and that a space always encodes as percent-2-0, never
as plus. The code calls Go's url.QueryEscape, which encodes a space as
plus (byte 43): on the query k equals a-space-b the canonical query comes
out as k=a+b, not k=a%20b. This theorem evaluates the code at that
failing input: the value's space byte 32 is emitted as byte 43 (plus) and
not as the bytes 37, 50, 48 (percent-2-0). -/
theorem C1_canonical_query_space_encodes_as_plus :
    orderAndEncodeUrlValues (goParseQuery (utf8Bytes "k=a%20b")) = .ok (utf8Bytes "k=a+b")
    ∧ escByte 32 = [43]
    ∧ utf8Bytes "k=a+b" ≠ utf8Bytes "k=a%20b" := by
  refine ⟨by rfl, by rfl, by decide⟩

/-- C3: SigningKey is the four-stage HMAC-SHA256 chain over date, region,
service and the aws4_request terminator starting from the key AWS4
prepended to the secret (a pure function of its four inputs in this
embedding), and on the documented inputs its hex encoding is the expected
vector. -/
theorem C3_signing_key_chain_and_vector :
    (∀ awsKey dateStamp regionName serviceName : String,
      SigningKey awsKey dateStamp regionName serviceName =
        signHMAC (signHMAC (signHMAC (signHMAC (utf8Bytes ("AWS4" ++ awsKey)) dateStamp)
          regionName) serviceName) "aws4_request")
    ∧ hexBytes (SigningKey "wJalrXUtnFEMI/K7MDENG+bPxRfiCYEXAMPLEKEY" "20120215" "us-east-1" "iam")
        = "f4780e2d9f65fa895f9c67b32ce1baf0b0d8a43505a000a1a9e090d414db404d" :=
  ⟨fun _ _ _ _ => rfl, by rfl⟩

/-- C6: AuthHeaderValue produces exactly the documented concatenation,
with no other formatting. -/
theorem C6_auth_header_value_format :
    ∀ (signature accessKey credentialScope : String) (cr : CanonicalRequestT),
      AuthHeaderValue signature accessKey credentialScope cr =
        "AWS4-HMAC-SHA256 Credential=" ++ accessKey ++ "/" ++ credentialScope ++
        ", SignedHeaders=" ++ cr.headers ++ ", Signature=" ++ signature := by
  intro sg ak cs cr
  apply String.ext
  show goSprintfS _ _ = _
  simp [goSprintfS, List.append_assoc]

/-- C9: serialization is repeatable: writing a request whose rewindable
body cursor is at offset 0 emits the wire head plus the whole body and
leaves the request in exactly the same state, so consecutive writes give
byte-identical output; from any cursor position the cursor is reset to
offset 0 afterward; a request with no body is likewise unchanged. -/
theorem C9_write_idempotent :
    ∀ (env : WireEnv) (m u : String) (hm : HeaderMap) (content : String) (pos : Nat),
      rrWrite env ⟨m, u, hm, some (.reusable ⟨content, 0⟩)⟩ =
        .ok (env.head m u hm ++ content, ⟨m, u, hm, some (.reusable ⟨content, 0⟩)⟩)
      ∧ rrWrite env ⟨m, u, hm, some (.reusable ⟨content, pos⟩)⟩ =
        .ok (env.head m u hm ++ String.mk (content.data.drop pos),
             ⟨m, u, hm, some (.reusable ⟨content, 0⟩)⟩)
      ∧ rrWrite env ⟨m, u, hm, none⟩ = .ok (env.head m u hm, ⟨m, u, hm, none⟩) :=
  fun _ _ _ _ _ _ => ⟨rfl, rfl, rfl⟩

/-- C10: splitting any string, the empty one included, on CRLF yields at
least one element, so the not-enough-data guard in CanonicalRequest never
fires: no input can produce the notEnoughData error. The empty input
instead fails the check that the first line has at least 3 space
separated tokens. -/
theorem C10_split_always_nonempty :
    (∀ s : String, 1 ≤ (splitCRLF s).length)
    ∧ (∀ s e, CanonicalRequest s ≠ .error (.notEnoughData e))
    ∧ CanonicalRequest "" = .error (.firstLineShort "") := by
  refine ⟨?_, ?_, by rfl⟩
  · intro s
    have := splitCRLF_ne_nil s
    cases h : splitCRLF s with
    | nil => exact absurd h this
    | cons a t => simp
  · intro s e h
    rcases hl : splitCRLF s with _ | ⟨l0, rest⟩
    · exact splitCRLF_ne_nil s hl
    · rw [CanonicalRequest, hl] at h
      repeat' split at h
      all_goals simp_all

/-- C10 witness: the guard indeed does not fire on a concrete input. -/
theorem C10_witness :
    1 ≤ (splitCRLF "").length ∧ CanonicalRequest "" = .error (.firstLineShort "") :=
  ⟨C10_split_always_nonempty.1 "", C10_split_always_nonempty.2.2⟩

/-- C4: SignStringToSign returns an error (and no signature) whenever the
input is not exactly 4 newline-delimited lines or the 3rd line does not
have exactly 4 slash-delimited components; otherwise, with the 3rd line
split as date/region/service/terminator, it returns the lowercase hex of
HMAC-SHA256 keyed by SigningKey(secret, date, region, service) over the
entire string-to-sign. -/
theorem C4_sign_string_to_sign_shape :
    (∀ sts secretKey : String, (goSplit '\n' sts).length ≠ 4 →
      ∃ e, SignStringToSign sts secretKey = .error e)
    ∧ (∀ sts secretKey l1 l2 l3 l4, goSplit '\n' sts = [l1, l2, l3, l4] →
      (goSplit '/' l3).length ≠ 4 → ∃ e, SignStringToSign sts secretKey = .error e)
    ∧ (∀ sts secretKey l1 l2 l3 l4 d r sv tm,
      goSplit '\n' sts = [l1, l2, l3, l4] → goSplit '/' l3 = [d, r, sv, tm] →
      SignStringToSign sts secretKey = .ok (hexBytes (signHMAC (SigningKey secretKey d r sv) sts))) := by
  refine ⟨?_, ?_, ?_⟩
  · intro sts sk hlen
    rcases ls : goSplit '\n' sts with _ | ⟨a, _ | ⟨b, _ | ⟨c, _ | ⟨d, _ | ⟨e0, t⟩⟩⟩⟩⟩ <;>
      simp [ls] at hlen ⊢ <;>
      exact ⟨_, by simp only [SignStringToSign, ls]; rfl⟩
  · intro sts sk l1 l2 l3 l4 hls hlen
    rcases lp : goSplit '/' l3 with _ | ⟨a, _ | ⟨b, _ | ⟨c, _ | ⟨d, _ | ⟨e0, t⟩⟩⟩⟩⟩ <;>
      simp [lp] at hlen ⊢ <;>
      exact ⟨_, by simp only [SignStringToSign, hls, lp]; rfl⟩
  · intro sts sk l1 l2 l3 l4 d r sv tm hls hlp
    simp only [SignStringToSign, hls, hlp]

/-- C4 witness: the success branch at the repository's own test vector:
the string-to-sign splits into 4 lines whose scope line has 4 components,
and the signature equals the documented hex value. -/
theorem C4_witness :
    SignStringToSign
      "AWS4-HMAC-SHA256\n20110909T233600Z\n20110909/us-east-1/iam/aws4_request\n3511de7e95d28ecd39e9513b642aee07e54f4941150d8df8bf94b328ef7e55e2"
      "wJalrXUtnFEMI/K7MDENG+bPxRfiCYEXAMPLEKEY" =
    .ok "ced6826de92d2bdeed8f846f0bf508e8559e98e4b0199114b84c54174deb456c" := by
  have h := C4_sign_string_to_sign_shape.2.2
    "AWS4-HMAC-SHA256\n20110909T233600Z\n20110909/us-east-1/iam/aws4_request\n3511de7e95d28ecd39e9513b642aee07e54f4941150d8df8bf94b328ef7e55e2"
    "wJalrXUtnFEMI/K7MDENG+bPxRfiCYEXAMPLEKEY"
    "AWS4-HMAC-SHA256" "20110909T233600Z" "20110909/us-east-1/iam/aws4_request"
    "3511de7e95d28ecd39e9513b642aee07e54f4941150d8df8bf94b328ef7e55e2"
    "20110909" "us-east-1" "iam" "aws4_request" (by rfl) (by rfl)
  rw [h]
  rfl

/-- C5: Sign resolves its timestamp by checking, in order: a nonempty
Date header parsed as RFC-1123; else a nonempty x-amz-date header parsed
in the compact layout; else the current UTC instant, which is written
onto the request as x-amz-date in the same layout (so the signed and
transmitted timestamps agree); and Sign returns a time-parse error,
without signing, exactly when the existing Date or x-amz-date header
fails to parse. -/
theorem C5_sign_timestamp_resolution :
    ∀ (env : SignEnv) (req : ReusableRequest) (ak sk rg sv : String),
      (hGet req.header "Date" ≠ "" →
        (env.parseRFC1123 (hGet req.header "Date") = none →
          Sign env req ak sk rg sv = (req, .error (.timeParse (hGet req.header "Date"))))
        ∧ ∀ t, env.parseRFC1123 (hGet req.header "Date") = some t →
          Sign env req ak sk rg sv = signWithTime env req ak sk rg sv t)
      ∧ (hGet req.header "Date" = "" → hGet req.header "x-amz-date" ≠ "" →
        (env.parseAmzDate (hGet req.header "x-amz-date") = none →
          Sign env req ak sk rg sv = (req, .error (.timeParse (hGet req.header "x-amz-date"))))
        ∧ ∀ t, env.parseAmzDate (hGet req.header "x-amz-date") = some t →
          Sign env req ak sk rg sv = signWithTime env req ak sk rg sv t)
      ∧ (hGet req.header "Date" = "" → hGet req.header "x-amz-date" = "" →
        Sign env req ak sk rg sv =
          signWithTime env { req with header := hSet req.header "x-amz-date" env.now.amzDate }
            ak sk rg sv env.now
        ∧ hGet (Sign env req ak sk rg sv).1.header "x-amz-date" = env.now.amzDate)
      ∧ (∀ d, (Sign env req ak sk rg sv).2 = .error (.timeParse d) ↔
          (hGet req.header "Date" ≠ "" ∧ d = hGet req.header "Date"
            ∧ env.parseRFC1123 d = none)
          ∨ (hGet req.header "Date" = "" ∧ hGet req.header "x-amz-date" ≠ ""
            ∧ d = hGet req.header "x-amz-date" ∧ env.parseAmzDate d = none)) := by
  intro env req ak sk rg sv
  by_cases hd : hGet req.header "Date" = ""
  · refine ⟨fun hne => absurd hd hne, ?_, ?_, ?_⟩
    · intro _ hne2
      constructor
      · intro hp
        unfold Sign
        rw [if_neg (not_not_intro hd), if_pos hne2, hp]
      · intro t hp
        unfold Sign
        rw [if_neg (not_not_intro hd), if_pos hne2, hp]
    · intro _ hz
      have hs : Sign env req ak sk rg sv =
          signWithTime env { req with header := hSet req.header "x-amz-date" env.now.amzDate }
            ak sk rg sv env.now := by
        unfold Sign
        rw [if_neg (not_not_intro hd), if_neg (not_not_intro hz)]
      refine ⟨hs, ?_⟩
      rw [hs, signWithTime_header_other env _ ak sk rg sv env.now "x-amz-date" (by decide)]
      exact hGet_hSet_same req.header "x-amz-date" env.now.amzDate
    · intro d
      by_cases hz : hGet req.header "x-amz-date" = ""
      · have hs : Sign env req ak sk rg sv =
            signWithTime env { req with header := hSet req.header "x-amz-date" env.now.amzDate }
              ak sk rg sv env.now := by
          unfold Sign
          rw [if_neg (not_not_intro hd), if_neg (not_not_intro hz)]
        rw [hs]
        constructor
        · intro hcontra
          exact absurd hcontra (signWithTime_no_timeParse env _ ak sk rg sv env.now d)
        · rintro (⟨hne, _, _⟩ | ⟨_, hne2, _, _⟩)
          · exact absurd hd hne
          · exact absurd hz hne2
      · cases hp : env.parseAmzDate (hGet req.header "x-amz-date") with
        | none =>
            have hs : Sign env req ak sk rg sv =
                (req, .error (.timeParse (hGet req.header "x-amz-date"))) := by
              unfold Sign
              rw [if_neg (not_not_intro hd), if_pos hz, hp]
            rw [hs]
            constructor
            · intro he
              have hde : hGet req.header "x-amz-date" = d := by
                have h1 := Except.error.inj he
                cases h1
                rfl
              right
              refine ⟨hd, hz, hde.symm, ?_⟩
              rw [← hde]
              exact hp
            · rintro (⟨hne, _, _⟩ | ⟨_, _, hdq, _⟩)
              · exact absurd hd hne
              · rw [hdq]
        | some t =>
            have hs : Sign env req ak sk rg sv = signWithTime env req ak sk rg sv t := by
              unfold Sign
              rw [if_neg (not_not_intro hd), if_pos hz, hp]
            rw [hs]
            constructor
            · intro hcontra
              exact absurd hcontra (signWithTime_no_timeParse env req ak sk rg sv t d)
            · rintro (⟨hne, _, _⟩ | ⟨_, _, hdq, hpd⟩)
              · exact absurd hd hne
              · rw [hdq] at hpd
                rw [hpd] at hp
                exact Option.noConfusion hp
  · refine ⟨?_, fun h0 => absurd h0 hd, fun h0 => absurd h0 hd, ?_⟩
    · intro _
      constructor
      · intro hp
        unfold Sign
        rw [if_pos hd, hp]
      · intro t hp
        unfold Sign
        rw [if_pos hd, hp]
    · intro d
      cases hp : env.parseRFC1123 (hGet req.header "Date") with
      | none =>
          have hs : Sign env req ak sk rg sv =
              (req, .error (.timeParse (hGet req.header "Date"))) := by
            unfold Sign
            rw [if_pos hd, hp]
          rw [hs]
          constructor
          · intro he
            have hde : hGet req.header "Date" = d := by
              have h1 := Except.error.inj he
              cases h1
              rfl
            left
            refine ⟨hd, hde.symm, ?_⟩
            rw [← hde]
            exact hp
          · rintro (⟨_, hdq, _⟩ | ⟨h0, _, _, _⟩)
            · rw [hdq]
            · exact absurd h0 hd
      | some t =>
          have hs : Sign env req ak sk rg sv = signWithTime env req ak sk rg sv t := by
            unfold Sign
            rw [if_pos hd, hp]
          rw [hs]
          constructor
          · intro hcontra
            exact absurd hcontra (signWithTime_no_timeParse env req ak sk rg sv t d)
          · rintro (⟨_, hdq, hpd⟩ | ⟨h0, _, _, _⟩)
            · rw [hdq] at hpd
              rw [hpd] at hp
              exact Option.noConfusion hp
            · exact absurd h0 hd

/-- C5 witness: a request whose Date header does not parse makes Sign
return the time-parse error with the request untouched. -/
theorem C5_witness :
    Sign ⟨fun _ => none, fun _ => none, ⟨"20130101", "20130101T000000Z"⟩, ⟨fun _ _ _ => ""⟩⟩
      ⟨"GET", "/", [("Date", ["bogus"])], none⟩ "a" "s" "r" "v" =
    (⟨"GET", "/", [("Date", ["bogus"])], none⟩, .error (.timeParse "bogus")) :=
  ((C5_sign_timestamp_resolution
      ⟨fun _ => none, fun _ => none, ⟨"20130101", "20130101T000000Z"⟩, ⟨fun _ _ _ => ""⟩⟩
      ⟨"GET", "/", [("Date", ["bogus"])], none⟩ "a" "s" "r" "v").1 (by decide)).1 rfl

/-- C7: whenever Sign returns an error from any stage, the Authorization
header of the returned request is exactly what it was on the input
request (never set or partially set); it is installed, with the final
value, only when every stage succeeds. -/
theorem C7_authorization_only_on_success :
    ∀ (env : SignEnv) (req : ReusableRequest) (ak sk rg sv : String),
      (∀ e, (Sign env req ak sk rg sv).2 = .error e →
        hGet (Sign env req ak sk rg sv).1.header "Authorization" =
          hGet req.header "Authorization")
      ∧ (∀ ah, (Sign env req ak sk rg sv).2 = .ok ah →
        hGet (Sign env req ak sk rg sv).1.header "Authorization" = ah) := by
  intro env req ak sk rg sv
  constructor
  · intro e he
    by_cases hd : hGet req.header "Date" = ""
    · by_cases hz : hGet req.header "x-amz-date" = ""
      · have hs : Sign env req ak sk rg sv =
            signWithTime env { req with header := hSet req.header "x-amz-date" env.now.amzDate }
              ak sk rg sv env.now := by
          unfold Sign
          rw [if_neg (not_not_intro hd), if_neg (not_not_intro hz)]
        rw [hs] at he ⊢
        rw [signWithTime_auth_err env _ ak sk rg sv env.now e he]
        exact hGet_hSet_ne req.header "x-amz-date" "Authorization" env.now.amzDate (by decide)
      · cases hp : env.parseAmzDate (hGet req.header "x-amz-date") with
        | none =>
            have hs : Sign env req ak sk rg sv =
                (req, .error (.timeParse (hGet req.header "x-amz-date"))) := by
              unfold Sign
              rw [if_neg (not_not_intro hd), if_pos hz, hp]
            rw [hs]
        | some t =>
            have hs : Sign env req ak sk rg sv = signWithTime env req ak sk rg sv t := by
              unfold Sign
              rw [if_neg (not_not_intro hd), if_pos hz, hp]
            rw [hs] at he ⊢
            exact signWithTime_auth_err env req ak sk rg sv t e he
    · cases hp : env.parseRFC1123 (hGet req.header "Date") with
      | none =>
          have hs : Sign env req ak sk rg sv =
              (req, .error (.timeParse (hGet req.header "Date"))) := by
            unfold Sign
            rw [if_pos hd, hp]
          rw [hs]
      | some t =>
          have hs : Sign env req ak sk rg sv = signWithTime env req ak sk rg sv t := by
            unfold Sign
            rw [if_pos hd, hp]
          rw [hs] at he ⊢
          exact signWithTime_auth_err env req ak sk rg sv t e he
  · intro ah hok
    by_cases hd : hGet req.header "Date" = ""
    · by_cases hz : hGet req.header "x-amz-date" = ""
      · have hs : Sign env req ak sk rg sv =
            signWithTime env { req with header := hSet req.header "x-amz-date" env.now.amzDate }
              ak sk rg sv env.now := by
          unfold Sign
          rw [if_neg (not_not_intro hd), if_neg (not_not_intro hz)]
        rw [hs] at hok ⊢
        exact signWithTime_auth_ok env _ ak sk rg sv env.now ah hok
      · cases hp : env.parseAmzDate (hGet req.header "x-amz-date") with
        | none =>
            have hs : Sign env req ak sk rg sv =
                (req, .error (.timeParse (hGet req.header "x-amz-date"))) := by
              unfold Sign
              rw [if_neg (not_not_intro hd), if_pos hz, hp]
            rw [hs] at hok
            exact Except.noConfusion hok
        | some t =>
            have hs : Sign env req ak sk rg sv = signWithTime env req ak sk rg sv t := by
              unfold Sign
              rw [if_neg (not_not_intro hd), if_pos hz, hp]
            rw [hs] at hok ⊢
            exact signWithTime_auth_ok env req ak sk rg sv t ah hok
    · cases hp : env.parseRFC1123 (hGet req.header "Date") with
      | none =>
          have hs : Sign env req ak sk rg sv =
              (req, .error (.timeParse (hGet req.header "Date"))) := by
            unfold Sign
            rw [if_pos hd, hp]
          rw [hs] at hok
          exact Except.noConfusion hok
      | some t =>
          have hs : Sign env req ak sk rg sv = signWithTime env req ak sk rg sv t := by
            unfold Sign
            rw [if_pos hd, hp]
          rw [hs] at hok ⊢
          exact signWithTime_auth_ok env req ak sk rg sv t ah hok

/-- C7 witness: on a failing Sign call (unparseable Date header) the
Authorization header is unchanged, here still absent. -/
theorem C7_witness :
    hGet (Sign ⟨fun _ => none, fun _ => none, ⟨"20130101", "20130101T000000Z"⟩, ⟨fun _ _ _ => ""⟩⟩
      ⟨"GET", "/", [("Date", ["bogus"])], none⟩ "a" "s" "r" "v").1.header "Authorization" = "" := by
  have h := (C7_authorization_only_on_success
      ⟨fun _ => none, fun _ => none, ⟨"20130101", "20130101T000000Z"⟩, ⟨fun _ _ _ => ""⟩⟩
      ⟨"GET", "/", [("Date", ["bogus"])], none⟩ "a" "s" "r" "v").1 (.timeParse "bogus") (by rfl)
  rw [h]
  rfl

/-- C2 counterexample: the claim requires pairs of one key sorted by
encoded value. On the query k=a%20 and k=a%21 the code emits first the
pair whose encoded value is a+ and then the one whose encoded value is
a%21, yet a+ is strictly greater than a%21 in byte order, so the output
is not sorted by encoded value (the code sorts the decoded values). -/
theorem C2_value_tie_not_sorted_by_encoded_value :
    orderAndEncodeUrlValues (goParseQuery (utf8Bytes "k=a%20&k=a%21")) =
      .ok (joinBytes [38] [utf8Bytes "k" ++ 61 :: queryEscape (utf8Bytes "a "),
                           utf8Bytes "k" ++ 61 :: queryEscape (utf8Bytes "a!")])
    ∧ bytesLe (queryEscape (utf8Bytes "a ")) (queryEscape (utf8Bytes "a!")) = false := by
  exact ⟨by rfl, by rfl⟩

/-- C2 (amended): the canonical query pairs appear sorted by encoded key
in byte-wise ascending order and, within one key, sorted by the decoded
(raw) value, not the encoded one; duplicates are preserved, the pairs are
joined as k=v with ampersands, and the canonical query string is empty
when the request has no query. -/
theorem C2_amended_query_pair_order :
    ∀ values : GoValues, valuesWF values = true →
      orderAndEncodeUrlValues values =
        .ok (joinBytes [38] ((specQueryPairs values).map fun p => p.1 ++ 61 :: queryEscape p.2))
      ∧ (specQueryPairs values).Pairwise (fun p q => lexPairLe p q = true)
      ∧ List.Perm (specQueryPairs values) (queryFlatPairs values)
      ∧ orderAndEncodeUrlValues [] = .ok [] := by
  intro values hwf
  obtain ⟨hnd, hval⟩ := valuesWF_parts hwf
  have hkeys : ∀ k ∈ sortLe bytesLe (values.map fun p => queryEscape p.1),
      ∃ dk, queryUnescape k = some dk := by
    intro k hk
    have hk' : k ∈ values.map fun p => queryEscape p.1 :=
      (List.perm_insertionSort _ _).mem_iff.mp hk
    rcases List.mem_map.mp hk' with ⟨p, hp, rfl⟩
    exact ⟨p.1, unescape_escape p.1 (hval p hp)⟩
  have hloop := oaeLoop_ok values _ hkeys
  have hsegs : ((codeQueryPairs values).map fun p => p.1 ++ 61 :: queryEscape p.2) =
      (sortLe bytesLe (values.map fun p => queryEscape p.1)).flatMap fun k =>
        (sortLe bytesLe (valuesGet values ((queryUnescape k).getD []))).map
          fun v => k ++ 61 :: queryEscape v := by
    unfold codeQueryPairs
    rw [List.map_flatMap]
    refine List.flatMap_congr ?_
    intro ek _
    rw [List.map_map]
    rfl
  have heq : orderAndEncodeUrlValues values =
      .ok (joinBytes [38] ((codeQueryPairs values).map fun p => p.1 ++ 61 :: queryEscape p.2)) := by
    unfold orderAndEncodeUrlValues
    rw [hloop, hsegs]
    rfl
  have hpairs : codeQueryPairs values = specQueryPairs values := by
    have hperm : List.Perm (codeQueryPairs values) (specQueryPairs values) :=
      (codeQueryPairs_perm hwf).trans (List.perm_insertionSort _ _).symm
    exact List.eq_of_perm_of_sorted hperm (codeQueryPairs_sorted hwf)
      (List.sorted_insertionSort _ _)
  refine ⟨by rw [heq, hpairs], ?_, List.perm_insertionSort _ _, rfl⟩
  exact List.sorted_insertionSort _ _

theorem C2_amended_witness :
    valuesWF [(utf8Bytes "k", [utf8Bytes "a ", utf8Bytes "a!"]), (utf8Bytes "b", [utf8Bytes "2"])]
      = true
    ∧ orderAndEncodeUrlValues
        [(utf8Bytes "k", [utf8Bytes "a ", utf8Bytes "a!"]), (utf8Bytes "b", [utf8Bytes "2"])] =
      .ok (utf8Bytes "b=2&k=a+&k=a%21") := by
  refine ⟨by rfl, ?_⟩
  have h := (C2_amended_query_pair_order
    [(utf8Bytes "k", [utf8Bytes "a ", utf8Bytes "a!"]), (utf8Bytes "b", [utf8Bytes "2"])]
    (by rfl)).1
  rw [h]
  rfl

/-- C8: the canonical header block splits each line on the first colon,
lowercases the name, trims the value per trimAll (collapsing whitespace
runs outside double quotes, quotes preserved), merges same-name headers
by comma-joining their values in encounter order, signs all headers
present (each name once, in the signed list), and sorts the names
byte-wise ascending; including the specification's two trimming examples. -/
theorem C8_canonical_headers :
    ∀ lines : List String,
      (crHeaderMap lines).2 =
        sortLe goStrLe (firstOcc ((headerPairs lines.tail).map fun p => p.1))
      ∧ (crHeaderMap lines).2.Pairwise (fun a b => goStrLe a b = true)
      ∧ (∀ k, assocGet (crHeaderMap lines).1 k = mergedValue (headerPairs lines.tail) k)
      ∧ trimAll "   \"a    b   c\"  " = "\"a    b   c\""
      ∧ trimAll "a   b   c" = "a b c" := by
  intro lines
  have hinv0 : ∀ x, (assocGet ([] : HeaderAssoc) x).isSome ↔ x ∈ ([] : List String) := by
    intro x
    simp [assocGet]
  obtain ⟨ha, hb⟩ := crHeaderLoop_spec lines.tail [] [] hinv0
  refine ⟨?_, ?_, ?_, by rfl, by rfl⟩
  · show sortLe goStrLe (crHeaderLoop lines.tail [] []).2 = _
    rw [ha, List.nil_append]
    rfl
  · show (sortLe goStrLe (crHeaderLoop lines.tail [] []).2).Pairwise _
    exact List.sorted_insertionSort _ _
  · intro k
    show assocGet (crHeaderLoop lines.tail [] []).1 k = _
    rw [hb k]
    show mergeOpt none _ = _
    cases mergedValue (headerPairs lines.tail) k <;> rfl
